import Mathlib

/-!
Shallow embedding of the rpex core (parsing + constraint solving + partition
enumeration for splitting a rectangle into a grid of sub-regions according to
per-axis integer ratios).

Conventions of the embedding:
* Rust `u32` values are modelled as `Nat`; the one place where the 32-bit
  bound is semantically visible to the claims is the numeral parser
  (`nom::character::complete::u32` rejects numerals whose value exceeds
  `u32::MAX`), which is modelled explicitly.
* A Rust panic (`Ratio::new` with a zero denominator, unsigned subtraction
  underflow, division by zero) is modelled as `none` in an `Option` wrapper
  around the function's result; a typed Rust error (`Result::Err`) is
  modelled as `Except.error`.
* Fixed-dimensionality arrays `[T; D]` are modelled as lists; where a claim
  needs the axis-count agreement between a ratio and a rectangle it is taken
  as a hypothesis.
-/

namespace Rpex

/-- Error value of `ratio_ext.rs` (`NotAnInteger`): carries the offending
ratio, which `fraction::Ratio` keeps in reduced form. -/
structure NotAnInteger where
  num : Nat
  den : Nat
  deriving DecidableEq, Repr

/-- Builds the `NotAnInteger` payload from an unreduced numerator/denominator
pair, reducing it the way `Ratio::new` does. -/
def mkNotAnInteger (n d : Nat) : NotAnInteger :=
  { num := n / Nat.gcd n d, den := d / Nat.gcd n d }

/-- Embedding of `RatioExt::try_to_integer` (`ratio_ext.rs` lines 17-28) for a
ratio with numerator `n` and denominator `d` (the ratio itself was built by
`Ratio::new`, so `d ≠ 0` at every use site): returns the integer value when the
reduced denominator is 1, i.e. when `d ∣ n`, else the `NotAnInteger` error. -/
def tryToInteger (n d : Nat) : Except NotAnInteger Nat :=
  if d ∣ n then Except.ok (n / d) else Except.error (mkNotAnInteger n d)

/-- Error value of `divides.rs` (`DoesNotDivide`); the display string of the
source is "{0} does not divide {1}", so the first field is rendered as the
non-dividing operand. -/
structure DoesNotDivide where
  arg0 : Nat
  arg1 : Nat
  deriving DecidableEq, Repr

/-- Embedding of `impl Div for Divides` (`divides.rs` lines 18-32):
`Divides(dividend) / Divides(divisor)`. The remainder operation `self.0 % rhs.0`
panics in Rust when the divisor is zero, modelled as `none`. On a non-zero
remainder the source constructs `DoesNotDivide(self.0, rhs.0)`, i.e. the
dividend is the FIRST carried operand and the divisor the second. -/
def dividesDiv (dividend divisor : Nat) : Option (Except DoesNotDivide Nat) :=
  if divisor = 0 then none
  else if dividend % divisor = 0 then some (Except.ok (dividend / divisor))
  else some (Except.error { arg0 := dividend, arg1 := divisor })

/-- Solved dimension sum (`dimension_sum.rs` lines 16-19): an ordered sequence
of addends along one axis. -/
structure DimensionSum where
  addends : List Nat
  deriving DecidableEq, Repr

/-- One element of `DimensionSum::iter_with_offsets` (`dimension_sum.rs`
lines 21-25). -/
structure AddendWithOffset where
  addend : Nat
  offset : Nat
  deriving DecidableEq, Repr

/-- Accumulator loop of `DimensionSum::iter_with_offsets` (`dimension_sum.rs`
lines 32-41): a scan that emits each addend with the sum of its predecessors. -/
def offsetScan : List Nat → Nat → List AddendWithOffset
  | [], _ => []
  | a :: rest, off => { addend := a, offset := off } :: offsetScan rest (off + a)

/-- Embedding of `DimensionSum::iter_with_offsets`. -/
def DimensionSum.iterWithOffsets (d : DimensionSum) : List AddendWithOffset :=
  offsetScan d.addends 0

/-- Embedding of `DimensionSum::sum` (`dimension_sum.rs` lines 43-45). -/
def DimensionSum.sum (d : DimensionSum) : Nat :=
  d.addends.sum

/-- Indeterminate dimension sum (`dimension_sum.rs` lines 52-55): `some`
is a known addend, `none` an unknown. -/
structure IndeterminateDimensionSum where
  addends : List (Option Nat)
  deriving DecidableEq, Repr

/-- Embedding of `IndeterminateDimensionSum::count_unknowns`
(`dimension_sum.rs` lines 58-60). -/
def IndeterminateDimensionSum.countUnknowns (s : IndeterminateDimensionSum) : Nat :=
  (s.addends.filter (fun a => a.isNone)).length

/-- Embedding of `IndeterminateDimensionSum::sum_knowns` (`dimension_sum.rs`
lines 62-64). -/
def IndeterminateDimensionSum.sumKnowns (s : IndeterminateDimensionSum) : Nat :=
  (s.addends.filterMap id).sum

/-- Embedding of `IndeterminateDimensionSum::infer_scale` (`dimension_sum.rs`
lines 66-74). When the sum is fully known the source builds
`Ratio::new(length, sum_knowns)`, which panics when `sum_knowns = 0`
(modelled as `none`), and converts it with `try_to_integer`. -/
def IndeterminateDimensionSum.inferScale (s : IndeterminateDimensionSum) (length : Nat) :
    Option (Except NotAnInteger (Option Nat)) :=
  if s.countUnknowns = 0 then
    if s.sumKnowns = 0 then none
    else some ((tryToInteger length s.sumKnowns).map (fun v => some v))
  else some (Except.ok none)

/-- Embedding of `IndeterminateDimensionSum::evaluate` (`dimension_sum.rs`
lines 76-95). With at least one unknown the source computes, in `Ratio<u32>`
arithmetic, `total = Ratio::new(length, scale)` (panics when `scale = 0`),
`total_unknown = total - sum_knowns` (unsigned subtraction: panics when
`length < sum_knowns * scale`), and
`solution = (total_unknown / count_unknowns).try_to_integer()`; as an exact
rational, `total_unknown / count_unknowns` is
`(length - sum_knowns * scale) / (scale * count_unknowns)`. Every `none`
addend becomes `solution` and every `some` addend is kept. With no unknowns
the known addends are returned unchanged. -/
def IndeterminateDimensionSum.evaluate (s : IndeterminateDimensionSum) (length scale : Nat) :
    Option (Except NotAnInteger DimensionSum) :=
  if s.countUnknowns ≠ 0 then
    if scale = 0 then none
    else if length < s.sumKnowns * scale then none
    else
      some ((tryToInteger (length - s.sumKnowns * scale) (scale * s.countUnknowns)).map
        (fun solution => { addends := s.addends.map (fun a => a.getD solution) }))
  else
    some (Except.ok { addends := s.addends.filterMap id })

/-- Modelled from the spec: the `Mul` implementation used as
`dim_sum * scale_factor` at `sums_in_ratio.rs` line 93 is not among the
provided sources; per the spec (section 4.6 step 3) the factor "is then
multiplied back into every axis's known addends before solving", so every
known addend is multiplied by the factor and unknowns stay unknown. -/
def IndeterminateDimensionSum.mulFactor (s : IndeterminateDimensionSum) (factor : Nat) :
    IndeterminateDimensionSum :=
  { addends := s.addends.map (fun a => a.map (fun v => v * factor)) }

/-- Rectangle of per-axis lengths (`rectangle.rs` lines 12-15). -/
structure HyperRectangle where
  lengths : List Nat
  deriving DecidableEq, Repr

/-- D-tuple of indeterminate dimension sums (`sums_in_ratio.rs` lines 48-51). -/
structure IndeterminateSumsInRatio where
  sums : List IndeterminateDimensionSum
  deriving DecidableEq, Repr

/-- D-tuple of solved dimension sums (`sums_in_ratio.rs` lines 19-21). -/
structure SumsInRatio where
  sums : List DimensionSum
  deriving DecidableEq, Repr

/-- Evaluation error of `sums_in_ratio.rs` lines 53-61. The
`DimensionSumEvaluation` variant of the source enum wraps a
`DimensionSumEvaluationError` type that is absent from the provided sources
and is unreachable in the provided code path (both `?` conversions in
`evaluate` go through the `#[from] NotAnInteger<u32>` variant), so it is
omitted here. The `UnequalScales` payload is a `HashSet<u32>`, modelled as a
duplicate-free list in first-insertion order. -/
inductive SumsInRatioEvaluationError where
  | unequalScales (scales : List Nat)
  | doesNotDivide (e : NotAnInteger)
  deriving DecidableEq, Repr

/-- Set insertion for the model of `HashSet<u32>`: adds the value only when
it is not already present. -/
def insertDistinct (l : List Nat) (v : Nat) : List Nat :=
  if v ∈ l then l else l ++ [v]

/-- In-order model of `sums_in_ratio.rs` lines 68-73: each axis is paired with
its rectangle length (`zip` truncates to the shorter list, as in Rust);
`infer_scale(length).transpose()` drops axes with unknowns, an `Err` aborts the
`collect::<Result<HashSet<_>, _>>` with that first error before later axes are
touched, and a panic on an earlier axis (`none`) happens before anything
later. -/
def collectScalesAux (acc : List Nat) :
    List (IndeterminateDimensionSum × Nat) → Option (Except NotAnInteger (List Nat))
  | [] => some (Except.ok acc)
  | (s, len) :: rest =>
    match s.inferScale len with
    | none => none
    | some (Except.error e) => some (Except.error e)
    | some (Except.ok none) => collectScalesAux acc rest
    | some (Except.ok (some v)) => collectScalesAux (insertDistinct acc v) rest

/-- Base-scale selection of `sums_in_ratio.rs` lines 75-82: zero inferred
values defaults to 1, one distinct value is taken as the base scale, two or
more distinct values is the `UnequalScales` failure carrying the whole set. -/
def baseScaleOf (ds : List Nat) : Except SumsInRatioEvaluationError Nat :=
  match ds with
  | [] => Except.ok 1
  | [x] => Except.ok x
  | _ => Except.error (SumsInRatioEvaluationError.unequalScales ds)

/-- Per-axis solving loop of `sums_in_ratio.rs` lines 91-97: each axis sum is
multiplied by `scale_factor` and evaluated against `length / scale` (the
rectangle length divided by the final scale); the
`collect::<Result<Vec<_>, _>>` stops at the first error, so later axes are not
evaluated after a failure. -/
def evalAxes (factor scale : Nat) :
    List (IndeterminateDimensionSum × Nat) → Option (Except NotAnInteger (List DimensionSum))
  | [] => some (Except.ok [])
  | (s, len) :: rest =>
    match (s.mulFactor factor).evaluate (len / scale) 1 with
    | none => none
    | some (Except.error e) => some (Except.error e)
    | some (Except.ok d) =>
      match evalAxes factor scale rest with
      | none => none
      | some (Except.error e) => some (Except.error e)
      | some (Except.ok ds) => some (Except.ok (d :: ds))

/-- Stage of `sums_in_ratio.rs` lines 84-107, after the base (`known`) scale
has been fixed: the final `scale` is the fold of `gcd` over the rectangle
lengths starting from the base scale, `scale_factor` is `known_scale / scale`
(a `u32` division, which panics when `scale = 0`), and every axis is solved. -/
def evaluateWithBase (r : IndeterminateSumsInRatio) (rect : HyperRectangle) (knownScale : Nat) :
    Option (Except SumsInRatioEvaluationError (SumsInRatio × Nat)) :=
  let scale := rect.lengths.foldl Nat.gcd knownScale
  if scale = 0 then none
  else
    match evalAxes (knownScale / scale) scale (r.sums.zip rect.lengths) with
    | none => none
    | some (Except.error e) =>
      some (Except.error (SumsInRatioEvaluationError.doesNotDivide e))
    | some (Except.ok solved) => some (Except.ok ({ sums := solved }, scale))

/-- Embedding of `IndeterminateSumsInRatio::evaluate` (`sums_in_ratio.rs`
lines 64-107): collect the distinct per-axis inferred scales, pick the base
scale (or fail with `UnequalScales`), then downscale by the gcd of the base
scale and all rectangle lengths and solve every axis (`evaluateWithBase`). -/
def IndeterminateSumsInRatio.evaluate (r : IndeterminateSumsInRatio) (rect : HyperRectangle) :
    Option (Except SumsInRatioEvaluationError (SumsInRatio × Nat)) :=
  match collectScalesAux [] (r.sums.zip rect.lengths) with
  | none => none
  | some (Except.error e) => some (Except.error (SumsInRatioEvaluationError.doesNotDivide e))
  | some (Except.ok ds) =>
    match baseScaleOf ds with
    | Except.error e => some (Except.error e)
    | Except.ok knownScale => evaluateWithBase r rect knownScale

/-- Grid cell geometry (`sums_in_ratio.rs` lines 23-26); the borrowed `&u32`
addends are modelled as owned values. -/
structure Partition where
  ratioPosition : List Nat
  ratio : List Nat
  deriving DecidableEq, Repr

/-- Row-major Cartesian product of a list of lists, first factor outermost
(varies slowest), matching `itertools::multi_cartesian_product` on a
non-empty list of factors. -/
def cartProd : List (List α) → List (List α)
  | [] => [[]]
  | xs :: rest => xs.flatMap (fun x => (cartProd rest).map (fun t => x :: t))

/-- Model of `itertools::multi_cartesian_product`: on an empty list of
factors the itertools adaptor yields no element at all. -/
def multiCartProd (ls : List (List α)) : List (List α) :=
  match ls with
  | [] => []
  | _ :: _ => cartProd ls

/-- Embedding of `SumsInRatio::iter_partitions` (`sums_in_ratio.rs`
lines 28-46): the multi-Cartesian product of the per-axis
`iter_with_offsets` sequences, each combination unzipped into a
`Partition` with `ratio_position` the offsets and `ratio` the addends. -/
def SumsInRatio.iterPartitions (r : SumsInRatio) : List Partition :=
  (multiCartProd (r.sums.map (fun d => d.iterWithOffsets))).map
    (fun combo =>
      { ratioPosition := combo.map (fun aw => aw.offset)
        ratio := combo.map (fun aw => aw.addend) })

/-- Specification-side enumeration of row-major multi-indices: all index
vectors over the given per-axis counts, with the first axis outermost
(varying slowest, as the spec's row-major order requires). -/
def allIndices : List Nat → List (List Nat)
  | [] => [[]]
  | c :: cs => (List.range c).flatMap (fun i => (allIndices cs).map (fun t => i :: t))

/-! ### Parsing

The nom-based parsers of the source are embedded over `List Char`. All the
parsers reachable from the claims use only the recoverable `Err::Error`
channel, so a single failure value (`none`) suffices. -/

/-- Numeric value of a decimal digit character. -/
def digitVal (c : Char) : Nat :=
  c.toNat - 48

/-- Numeric value of a run of decimal digit characters. -/
def digitsVal (l : List Char) : Nat :=
  l.foldl (fun acc c => 10 * acc + digitVal c) 0

/-- Embedding of `nom::character::complete::u32`: consumes the maximal
leading run of decimal digits; fails (without consuming) when the run is
empty or its checked accumulation overflows `u32`, i.e. when its value
exceeds `u32::MAX`. -/
def parseU32 (s : List Char) : Option (List Char × Nat) :=
  let ds := s.takeWhile Char.isDigit
  if ds.isEmpty then none
  else if digitsVal ds < 4294967296 then some (s.dropWhile Char.isDigit, digitsVal ds)
  else none

/-- Embedding of `nom::combinator::opt` applied to the `u32` numeral:
always succeeds, consuming nothing on failure of the inner numeral. -/
def parseOptU32 (s : List Char) : List Char × Option Nat :=
  match parseU32 s with
  | some (rest, v) => (rest, some v)
  | none => (s, none)

/-- Tail loop of `nom::multi::separated_list1(char('+'), opt(u32))` as used by
`IndeterminateDimensionSum::parser` (`dimension_sum.rs` lines 98-104): while
the next character is the `+` separator, consume it and parse one optional
numeral; stop (successfully) otherwise. The element parser `opt(u32)` never
fails, so only the separator ends the loop. -/
def dimSumLoop (s : List Char) : List (Option Nat) × List Char :=
  match s with
  | '+' :: rest =>
    let pr := parseOptU32 rest
    let tail := dimSumLoop pr.1
    (pr.2 :: tail.1, tail.2)
  | _ => ([], s)
termination_by s.length
decreasing_by
  simp only [List.length_cons]
  refine Nat.lt_succ_of_le ?_
  show (parseOptU32 rest).1.length ≤ rest.length
  unfold parseOptU32
  cases hp : parseU32 rest with
  | none => exact Nat.le_refl rest.length
  | some p =>
    unfold parseU32 at hp
    simp only at hp
    split at hp
    · exact absurd hp (by simp)
    · split at hp
      · cases hp
        exact (List.dropWhile_sublist Char.isDigit).length_le
      · exact absurd hp (by simp)

/-- Embedding of `IndeterminateDimensionSum::parser`: one leading optional
numeral followed by the separator loop; returns the parsed addend options and
the unconsumed remainder. -/
def parseDimSum (s : List Char) : List (Option Nat) × List Char :=
  let pr := parseOptU32 s
  let tail := dimSumLoop pr.1
  (pr.2 :: tail.1, tail.2)

/-- Embedding of `FromStr for IndeterminateDimensionSum`
(`impl_from_str_for_nom_parsable`): the parser wrapped in
`nom::combinator::all_consuming`. -/
def IndeterminateDimensionSum.fromStr (s : List Char) : Option IndeterminateDimensionSum :=
  let p := parseDimSum s
  if p.2.isEmpty then some { addends := p.1 } else none

/-- Embedding of the `many_m_n(D-1, D-1, pair(char('x'), u32))` tail of
`separated_list_m_n(D, D, char('x'), u32)` (`parser_combinators.rs` lines
15-31) as used by `HyperRectangle::parser`: exactly `k` further occurrences
of the separator followed by a numeral must parse. -/
def repPairXU32 : Nat → List Char → Option (List Char × List Nat)
  | 0, s => some (s, [])
  | k + 1, s =>
    match s with
    | 'x' :: rest =>
      match parseU32 rest with
      | some (rest2, v) =>
        match repPairXU32 k rest2 with
        | some (rem, vs) => some (rem, v :: vs)
        | none => none
      | none => none
    | _ => none

/-- Embedding of `HyperRectangle::parser` (`rectangle.rs` lines 17-32) for a
given dimension count `D ≥ 1` (the source asserts `D != 0`): a first numeral
(`min = D ≥ 1`, so its failure is a failure of the whole parser) followed by
exactly `D - 1` separator/numeral pairs. -/
def rectParse (D : Nat) (s : List Char) : Option (List Char × List Nat) :=
  match parseU32 s with
  | some (rest, v) =>
    match repPairXU32 (D - 1) rest with
    | some (rem, vs) => some (rem, v :: vs)
    | none => none
  | none => none

/-- Embedding of `FromStr for HyperRectangle` (`rectangle.rs` lines 34-47):
the parser wrapped in `all_consuming`. -/
def HyperRectangle.fromStr (D : Nat) (s : List Char) : Option HyperRectangle :=
  match rectParse D s with
  | some (rem, vs) => if rem.isEmpty then some { lengths := vs } else none
  | none => none

/-- Specification-side encoder for the rectangle grammar: field strings
joined with a single `x` between consecutive fields. -/
def joinX : List (List Char) → List Char
  | [] => []
  | [x] => x
  | x :: rest => x ++ 'x' :: joinX rest

/-- Tail form of `joinX`: every field preceded by one `x` separator. -/
def xPrefixed : List (List Char) → List Char
  | [] => []
  | r :: rest => 'x' :: (r ++ xPrefixed rest)

/-- Decimal rendering of a number, as `u32::to_string` produces it (most
significant digit first, no leading zeros). -/
def natToDigits (n : Nat) : List Char :=
  if h : n < 10 then [Char.ofNat (48 + n)]
  else natToDigits (n / 10) ++ [Char.ofNat (48 + n % 10)]
termination_by n
decreasing_by
  exact Nat.div_lt_self (by omega) (by decide)

/-- String representation of one addend position, as `impl Display for
IndeterminateDimensionSum` renders it: a known addend in decimal, an unknown
as the empty string. -/
def encAddend (a : Option Nat) : List Char :=
  match a with
  | some v => natToDigits v
  | none => []

/-- Embedding of `Vec::join("+")`: the field strings joined with a single
`+` between consecutive fields. -/
def joinPlus : List (List Char) → List Char
  | [] => []
  | [x] => x
  | x :: rest => x ++ '+' :: joinPlus rest

/-- Embedding of `impl Display for IndeterminateDimensionSum`
(`dimension_sum.rs` lines 110-125): each known addend is rendered in decimal,
each unknown as the empty string, and the fields are joined with `+`. -/
def IndeterminateDimensionSum.display (s : IndeterminateDimensionSum) : List Char :=
  joinPlus (s.addends.map encAddend)

/-! ### Supporting lemmas -/

theorem sum_map_getD (l : List (Option Nat)) (sol : Nat) :
    (l.map (fun a => a.getD sol)).sum =
      (l.filterMap id).sum + (l.filter (fun a => a.isNone)).length * sol := by
  induction l with
  | nil => simp
  | cons a t ih =>
    cases a with
    | none =>
      simp [List.filterMap_cons, List.filter_cons, ih, Nat.succ_mul]
      omega
    | some v =>
      simp [List.filterMap_cons, List.filter_cons, ih]
      omega

theorem filter_isNone_map_mul (l : List (Option Nat)) (f : Nat) :
    ((l.map (fun a => a.map (fun v => v * f))).filter (fun a => a.isNone)).length =
      (l.filter (fun a => a.isNone)).length := by
  induction l with
  | nil => rfl
  | cons a t ih => cases a <;> simp [List.filter_cons, ih]

theorem filterMap_id_map_mul (l : List (Option Nat)) (f : Nat) :
    (l.map (fun a => a.map (fun v => v * f))).filterMap id =
      (l.filterMap id).map (fun v => v * f) := by
  induction l with
  | nil => rfl
  | cons a t ih => cases a <;> simp [List.filterMap_cons, ih]

theorem sum_map_mul (l : List Nat) (f : Nat) :
    (l.map (fun v => v * f)).sum = l.sum * f := by
  induction l with
  | nil => simp
  | cons a t ih => simp [ih, Nat.add_mul]

theorem mulFactor_countUnknowns (s : IndeterminateDimensionSum) (f : Nat) :
    (s.mulFactor f).countUnknowns = s.countUnknowns :=
  filter_isNone_map_mul s.addends f

theorem mulFactor_sumKnowns (s : IndeterminateDimensionSum) (f : Nat) :
    (s.mulFactor f).sumKnowns = s.sumKnowns * f := by
  show ((s.addends.map _).filterMap id).sum = _
  rw [filterMap_id_map_mul, sum_map_mul]
  rfl

theorem mulFactor_addends (s : IndeterminateDimensionSum) (f : Nat) :
    (s.mulFactor f).addends = s.addends.map (fun a => a.map (fun v => v * f)) :=
  rfl

theorem foldl_gcd_dvd_init (l : List Nat) (a : Nat) : (l.foldl Nat.gcd a) ∣ a := by
  induction l generalizing a with
  | nil => exact dvd_refl a
  | cons x t ih => exact dvd_trans (ih (Nat.gcd a x)) (Nat.gcd_dvd_left a x)

theorem foldl_gcd_dvd_mem (l : List Nat) : ∀ (a x : Nat), x ∈ l → (l.foldl Nat.gcd a) ∣ x := by
  induction l with
  | nil => intro _ _ hx; cases hx
  | cons y t ih =>
    intro a x hx
    cases hx with
    | head => exact dvd_trans (foldl_gcd_dvd_init t (Nat.gcd a y)) (Nat.gcd_dvd_right a y)
    | tail _ h => exact ih (Nat.gcd a y) x h

theorem insertDistinct_mem (l : List Nat) (v w : Nat) :
    w ∈ insertDistinct l v ↔ w ∈ l ∨ w = v := by
  unfold insertDistinct
  split
  · rename_i h
    constructor
    · exact Or.inl
    · rintro (h1 | rfl)
      · exact h1
      · exact h
  · simp [List.mem_append]

theorem insertDistinct_subset (l : List Nat) (v : Nat) : l ⊆ insertDistinct l v :=
  fun _ hx => (insertDistinct_mem l v _).mpr (Or.inl hx)

theorem insertDistinct_nodup (l : List Nat) (v : Nat) (h : l.Nodup) :
    (insertDistinct l v).Nodup := by
  unfold insertDistinct
  split
  · exact h
  · rename_i hv
    simp [List.nodup_append, h, hv]

theorem zip_getD (l1 : List α) (l2 : List β) (i : Nat) (h1 : i < l1.length)
    (h2 : i < l2.length) (a : α) (b : β) :
    (l1.zip l2).getD i (a, b) = (l1.getD i a, l2.getD i b) := by
  induction l1 generalizing l2 i with
  | nil => cases h1
  | cons x t ih =>
    cases l2 with
    | nil => cases h2
    | cons y u =>
      cases i with
      | zero => rfl
      | succ j =>
        simp only [List.zip_cons_cons, List.getD_cons_succ]
        exact ih u j (Nat.lt_of_succ_lt_succ h1) (Nat.lt_of_succ_lt_succ h2)

theorem inferScale_ok_none_iff (s : IndeterminateDimensionSum) (len : Nat) :
    s.inferScale len = some (Except.ok none) ↔ s.countUnknowns ≠ 0 := by
  unfold IndeterminateDimensionSum.inferScale
  split
  · rename_i h0
    constructor
    · intro hh
      split at hh
      · cases hh
      · unfold tryToInteger at hh
        split at hh <;> simp [Except.map] at hh
    · intro hu; exact absurd h0 hu
  · simp_all

theorem inferScale_ok_some_iff (s : IndeterminateDimensionSum) (len v : Nat) :
    s.inferScale len = some (Except.ok (some v)) ↔
      s.countUnknowns = 0 ∧ s.sumKnowns ≠ 0 ∧ s.sumKnowns ∣ len ∧ len / s.sumKnowns = v := by
  unfold IndeterminateDimensionSum.inferScale
  split
  · rename_i h0
    split
    · rename_i hk
      constructor
      · intro hh; cases hh
      · intro ⟨_, hk2, _, _⟩; exact absurd hk hk2
    · rename_i hk
      unfold tryToInteger
      split
      · rename_i hdvd
        simp [Except.map, h0, hk, hdvd, eq_comm]
      · rename_i hdvd
        simp only [Except.map]
        constructor
        · intro hh; simp at hh
        · intro ⟨_, _, hd, _⟩; exact absurd hd hdvd
  · rename_i h0
    constructor
    · intro hh; cases hh
    · intro ⟨hz, _⟩; exact absurd hz h0

theorem inferScale_none_iff (s : IndeterminateDimensionSum) (len : Nat) :
    s.inferScale len = none ↔ (s.countUnknowns = 0 ∧ s.sumKnowns = 0) := by
  unfold IndeterminateDimensionSum.inferScale
  split
  · rename_i h0
    split
    · simp_all
    · unfold tryToInteger
      split <;> simp_all [Except.map]
  · simp_all

theorem inferScale_isSome_of_known (s : IndeterminateDimensionSum) (len : Nat)
    (h0 : s.countUnknowns = 0) (hk : 0 < s.sumKnowns) : (s.inferScale len).isSome := by
  unfold IndeterminateDimensionSum.inferScale
  rw [if_pos h0, if_neg (Nat.pos_iff_ne_zero.mp hk)]
  rfl

theorem dimEvaluate_known (s : IndeterminateDimensionSum) (length scale : Nat)
    (h0 : s.countUnknowns = 0) :
    s.evaluate length scale = some (Except.ok { addends := s.addends.filterMap id }) := by
  unfold IndeterminateDimensionSum.evaluate
  rw [if_neg (by simp [h0])]

theorem dimEvaluate_unknown_underflow (s : IndeterminateDimensionSum) (length scale : Nat)
    (hu : s.countUnknowns ≠ 0) (hs : scale ≠ 0) (hlt : length < s.sumKnowns * scale) :
    s.evaluate length scale = none := by
  unfold IndeterminateDimensionSum.evaluate
  rw [if_pos hu, if_neg hs, if_pos hlt]

theorem dimEvaluate_unknown_ok_iff (s : IndeterminateDimensionSum) (length scale : Nat)
    (d : DimensionSum) (hu : s.countUnknowns ≠ 0) (hs : scale ≠ 0)
    (hge : s.sumKnowns * scale ≤ length) :
    s.evaluate length scale = some (Except.ok d) ↔
      ((scale * s.countUnknowns) ∣ (length - s.sumKnowns * scale) ∧
        d = { addends := s.addends.map (fun a =>
          a.getD ((length - s.sumKnowns * scale) / (scale * s.countUnknowns))) }) := by
  unfold IndeterminateDimensionSum.evaluate
  rw [if_pos hu, if_neg hs, if_neg (Nat.not_lt.mpr hge)]
  unfold tryToInteger
  split
  · rename_i hdvd
    simp [Except.map, hdvd, eq_comm]
  · rename_i hdvd
    simp only [Except.map]
    constructor
    · intro hh; simp at hh
    · intro ⟨hd, _⟩; exact absurd hd hdvd

theorem dimEvaluate_unknown_error (s : IndeterminateDimensionSum) (length scale : Nat)
    (hu : s.countUnknowns ≠ 0) (hs : scale ≠ 0) (hge : s.sumKnowns * scale ≤ length)
    (hdvd : ¬ (scale * s.countUnknowns) ∣ (length - s.sumKnowns * scale)) :
    s.evaluate length scale =
      some (Except.error
        (mkNotAnInteger (length - s.sumKnowns * scale) (scale * s.countUnknowns))) := by
  unfold IndeterminateDimensionSum.evaluate
  rw [if_pos hu, if_neg hs, if_neg (Nat.not_lt.mpr hge)]
  unfold tryToInteger
  rw [if_neg hdvd]
  rfl

theorem dimEvaluate_one_ok_sum (s : IndeterminateDimensionSum) (L : Nat) (d : DimensionSum)
    (h : s.evaluate L 1 = some (Except.ok d)) :
    d.addends.sum = if s.countUnknowns = 0 then s.sumKnowns else L := by
  by_cases h0 : s.countUnknowns = 0
  · rw [dimEvaluate_known s L 1 h0] at h
    cases h
    simp [h0]
    rfl
  · have hge : s.sumKnowns * 1 ≤ L := by
      by_contra hlt
      rw [dimEvaluate_unknown_underflow s L 1 h0 (by decide) (Nat.lt_of_not_le hlt)] at h
      cases h
    obtain ⟨hdvd, hd⟩ := (dimEvaluate_unknown_ok_iff s L 1 d h0 (by decide) hge).mp h
    rw [if_neg h0, hd]
    simp only []
    rw [sum_map_getD]
    have hcount : (s.addends.filter (fun a => a.isNone)).length = s.countUnknowns := rfl
    have hknown : (s.addends.filterMap id).sum = s.sumKnowns := rfl
    rw [hcount, hknown]
    rw [Nat.one_mul] at hdvd ⊢
    have h2 := Nat.mul_div_cancel' hdvd
    omega

theorem collectScalesAux_subset :
    ∀ (pairs : List (IndeterminateDimensionSum × Nat)) (acc ds : List Nat),
      collectScalesAux acc pairs = some (Except.ok ds) → acc ⊆ ds := by
  intro pairs
  induction pairs with
  | nil =>
    intro acc ds h
    unfold collectScalesAux at h
    simp only [Option.some.injEq, Except.ok.injEq] at h
    subst h
    exact List.Subset.refl _
  | cons p t ih =>
    intro acc ds h
    obtain ⟨s, len⟩ := p
    unfold collectScalesAux at h
    split at h
    · cases h
    · exact absurd h (by simp)
    · exact ih acc ds h
    · exact fun x hx => ih _ ds h (insertDistinct_subset acc _ hx)

theorem collectScalesAux_mem :
    ∀ (pairs : List (IndeterminateDimensionSum × Nat)) (acc ds : List Nat),
      collectScalesAux acc pairs = some (Except.ok ds) →
      ∀ v, v ∈ ds ↔ v ∈ acc ∨ ∃ p, p ∈ pairs ∧ p.1.countUnknowns = 0 ∧
        p.1.sumKnowns ∣ p.2 ∧ p.2 / p.1.sumKnowns = v := by
  intro pairs
  induction pairs with
  | nil =>
    intro acc ds h v
    unfold collectScalesAux at h
    simp only [Option.some.injEq, Except.ok.injEq] at h
    subst h
    simp
  | cons p t ih =>
    intro acc ds h v
    obtain ⟨s, len⟩ := p
    unfold collectScalesAux at h
    split at h
    · cases h
    · exact absurd h (by simp)
    · rename_i heq
      have hu := (inferScale_ok_none_iff s len).mp heq
      rw [ih acc ds h v]
      constructor
      · rintro (ha | ⟨q, hq, hrest⟩)
        · exact Or.inl ha
        · exact Or.inr ⟨q, List.mem_cons_of_mem _ hq, hrest⟩
      · rintro (ha | ⟨q, hq, h1, h2, h3⟩)
        · exact Or.inl ha
        · cases List.mem_cons.mp hq with
          | inl hq1 => subst hq1; exact absurd h1 hu
          | inr hq2 => exact Or.inr ⟨q, hq2, h1, h2, h3⟩
    · rename_i v0 heq
      obtain ⟨h0, hk, hdvd, hv0⟩ := (inferScale_ok_some_iff s len v0).mp heq
      rw [ih _ ds h v, insertDistinct_mem]
      constructor
      · rintro ((ha | rfl) | ⟨q, hq, hrest⟩)
        · exact Or.inl ha
        · exact Or.inr ⟨(s, len), List.mem_cons_self _ _, h0, hdvd, hv0⟩
        · exact Or.inr ⟨q, List.mem_cons_of_mem _ hq, hrest⟩
      · rintro (ha | ⟨q, hq, h1, h2, h3⟩)
        · exact Or.inl (Or.inl ha)
        · cases List.mem_cons.mp hq with
          | inl hq1 =>
            subst hq1
            exact Or.inl (Or.inr (by rw [← h3, hv0]))
          | inr hq2 => exact Or.inr ⟨q, hq2, h1, h2, h3⟩

theorem collectScalesAux_nodup :
    ∀ (pairs : List (IndeterminateDimensionSum × Nat)) (acc ds : List Nat),
      acc.Nodup → collectScalesAux acc pairs = some (Except.ok ds) → ds.Nodup := by
  intro pairs
  induction pairs with
  | nil =>
    intro acc ds hn h
    unfold collectScalesAux at h
    simp only [Option.some.injEq, Except.ok.injEq] at h
    subst h
    exact hn
  | cons p t ih =>
    intro acc ds hn h
    obtain ⟨s, len⟩ := p
    unfold collectScalesAux at h
    split at h
    · cases h
    · exact absurd h (by simp)
    · exact ih acc ds hn h
    · exact ih _ ds (insertDistinct_nodup acc _ hn) h

theorem collectScalesAux_known :
    ∀ (pairs : List (IndeterminateDimensionSum × Nat)) (acc ds : List Nat),
      collectScalesAux acc pairs = some (Except.ok ds) →
      ∀ p ∈ pairs, p.1.countUnknowns = 0 →
        0 < p.1.sumKnowns ∧ p.1.sumKnowns ∣ p.2 ∧ p.2 / p.1.sumKnowns ∈ ds := by
  intro pairs
  induction pairs with
  | nil => intro acc ds _ p hp; cases hp
  | cons q t ih =>
    intro acc ds h p hp h0
    obtain ⟨s, len⟩ := q
    unfold collectScalesAux at h
    split at h
    · cases h
    · exact absurd h (by simp)
    · rename_i heq
      have hu := (inferScale_ok_none_iff s len).mp heq
      cases List.mem_cons.mp hp with
      | inl hp1 => subst hp1; exact absurd h0 hu
      | inr hp2 => exact ih acc ds h p hp2 h0
    · rename_i v0 heq
      obtain ⟨_, hk, hdvd, hv0⟩ := (inferScale_ok_some_iff s len v0).mp heq
      cases List.mem_cons.mp hp with
      | inl hp1 =>
        subst hp1
        refine ⟨Nat.pos_of_ne_zero hk, hdvd, ?_⟩
        rw [hv0]
        exact collectScalesAux_subset t _ ds h
          ((insertDistinct_mem acc v0 v0).mpr (Or.inr rfl))
      | inr hp2 => exact ih _ ds h p hp2 h0

theorem evalAxes_ok :
    ∀ (pairs : List (IndeterminateDimensionSum × Nat)) (factor scale : Nat)
      (ds : List DimensionSum),
      evalAxes factor scale pairs = some (Except.ok ds) →
      ds.length = pairs.length ∧
      ∀ i, i < pairs.length →
        ((pairs.getD i ({ addends := [] }, 0)).1.mulFactor factor).evaluate
            ((pairs.getD i ({ addends := [] }, 0)).2 / scale) 1 =
          some (Except.ok (ds.getD i { addends := [] })) := by
  intro pairs
  induction pairs with
  | nil =>
    intro factor scale ds h
    unfold evalAxes at h
    simp only [Option.some.injEq, Except.ok.injEq] at h
    subst h
    exact ⟨rfl, fun i hi => absurd hi (by simp)⟩
  | cons p t ih =>
    intro factor scale ds h
    obtain ⟨s, len⟩ := p
    unfold evalAxes at h
    split at h
    · cases h
    · exact absurd h (by simp)
    · rename_i d hd
      split at h
      · cases h
      · exact absurd h (by simp)
      · rename_i ds2 hds2
        obtain rfl : ds = d :: ds2 := by
          simpa [eq_comm] using h
        obtain ⟨hlen, hidx⟩ := ih factor scale ds2 hds2
        refine ⟨by simp [hlen], ?_⟩
        intro i hi
        cases i with
        | zero => simpa using hd
        | succ j =>
          simp only [List.getD_cons_succ]
          exact hidx j (by simpa using hi)

theorem baseScaleOf_nil : baseScaleOf [] = Except.ok 1 := rfl

theorem baseScaleOf_single (x : Nat) : baseScaleOf [x] = Except.ok x := rfl

theorem baseScaleOf_two (ds : List Nat) (h : 2 ≤ ds.length) :
    baseScaleOf ds = Except.error (SumsInRatioEvaluationError.unequalScales ds) := by
  match ds with
  | [] => simp at h
  | [x] => simp at h
  | x :: y :: t => rfl

theorem baseScaleOf_ok_mem (ds : List Nat) (b v : Nat) (hb : baseScaleOf ds = Except.ok b)
    (hv : v ∈ ds) : v = b := by
  match ds with
  | [] => cases hv
  | [x] =>
    simp only [baseScaleOf, Except.ok.injEq] at hb
    cases List.mem_singleton.mp hv
    exact hb
  | x :: y :: t => simp [baseScaleOf] at hb

theorem sumsEvaluate_ok_inv (r : IndeterminateSumsInRatio) (rect : HyperRectangle)
    (solved : SumsInRatio) (scale : Nat)
    (h : r.evaluate rect = some (Except.ok (solved, scale))) :
    ∃ ds knownScale,
      collectScalesAux [] (r.sums.zip rect.lengths) = some (Except.ok ds) ∧
      baseScaleOf ds = Except.ok knownScale ∧
      scale = rect.lengths.foldl Nat.gcd knownScale ∧
      scale ≠ 0 ∧
      evalAxes (knownScale / scale) scale (r.sums.zip rect.lengths) =
        some (Except.ok solved.sums) := by
  unfold IndeterminateSumsInRatio.evaluate at h
  split at h
  · cases h
  · exact absurd h (by simp)
  · rename_i ds hds
    split at h
    · exact absurd h (by simp)
    · rename_i knownScale hks
      simp only [evaluateWithBase] at h
      split at h
      · cases h
      · rename_i hs0
        split at h
        · cases h
        · exact absurd h (by simp)
        · rename_i sums2 hax
          simp only [Option.some.injEq, Except.ok.injEq, Prod.mk.injEq] at h
          obtain ⟨h1, h2⟩ := h
          subst h2
          exact ⟨ds, knownScale, hds, hks, rfl, hs0, by rw [← h1]; exact hax⟩

/-! ### Claims -/

/-- C1: whenever `IndeterminateSumsInRatio::evaluate` succeeds on a rectangle,
returning a solved `SumsInRatio` and an integer scale, then for every axis `i`
the sum of that axis's solved addends multiplied by the returned scale equals
`rectangle.lengths[i]`; `evaluate` never returns a result violating this
equality on any axis. -/
theorem c1_divisibility_invariant (r : IndeterminateSumsInRatio) (rect : HyperRectangle)
    (solved : SumsInRatio) (scale : Nat)
    (hlen : r.sums.length = rect.lengths.length)
    (h : r.evaluate rect = some (Except.ok (solved, scale))) :
    solved.sums.length = rect.lengths.length ∧
    ∀ i, i < rect.lengths.length →
      (solved.sums.getD i { addends := [] }).sum * scale = rect.lengths.getD i 0 := by
  obtain ⟨ds, b, hds, hb, hscale, hs0, hax⟩ := sumsEvaluate_ok_inv r rect solved scale h
  obtain ⟨hlen2, hidx⟩ := evalAxes_ok _ _ _ _ hax
  have hziplen : (r.sums.zip rect.lengths).length = rect.lengths.length := by
    rw [List.length_zip, hlen, Nat.min_self]
  refine ⟨by rw [hlen2, hziplen], ?_⟩
  intro i hi
  have hi2 : i < (r.sums.zip rect.lengths).length := by rw [hziplen]; exact hi
  have hpair := hidx i hi2
  rw [zip_getD r.sums rect.lengths i (by rw [hlen]; exact hi) hi] at hpair
  have hLmem : rect.lengths.getD i 0 ∈ rect.lengths := by
    rw [List.getD_eq_getElem _ _ hi]
    exact List.getElem_mem _
  have hscl : scale ∣ rect.lengths.getD i 0 := by
    rw [hscale]
    exact foldl_gcd_dvd_mem rect.lengths b _ hLmem
  have hsum := dimEvaluate_one_ok_sum _ _ _ hpair
  rw [mulFactor_countUnknowns] at hsum
  by_cases h0 : (r.sums.getD i { addends := [] }).countUnknowns = 0
  · rw [if_pos h0, mulFactor_sumKnowns] at hsum
    have hzmem : (r.sums.getD i { addends := [] }, rect.lengths.getD i 0) ∈
        r.sums.zip rect.lengths := by
      have hz := zip_getD r.sums rect.lengths i (by rw [hlen]; exact hi) hi
        { addends := [] } 0
      rw [List.getD_eq_getElem _ _ hi2] at hz
      exact hz ▸ List.getElem_mem _
    obtain ⟨hkpos, hkdvd, hmem⟩ := collectScalesAux_known _ _ _ hds _ hzmem h0
    have hvb := baseScaleOf_ok_mem ds b _ hb hmem
    have hLb : (r.sums.getD i { addends := [] }).sumKnowns * b = rect.lengths.getD i 0 := by
      rw [← hvb]
      exact Nat.mul_div_cancel' hkdvd
    have hsb : scale ∣ b := by
      rw [hscale]
      exact foldl_gcd_dvd_init rect.lengths b
    show (solved.sums.getD i { addends := [] }).addends.sum * scale = rect.lengths.getD i 0
    rw [hsum, Nat.mul_assoc, Nat.div_mul_cancel hsb, hLb]
  · rw [if_neg h0] at hsum
    show (solved.sums.getD i { addends := [] }).addends.sum * scale = rect.lengths.getD i 0
    rw [hsum, Nat.div_mul_cancel hscl]

theorem c1_witness :
    (({ sums := [{ addends := [1, 2] }, { addends := [3] }] } : SumsInRatio).sums.getD 0
        { addends := [] }).sum * 3 =
      ({ lengths := [9, 9] } : HyperRectangle).lengths.getD 0 0 :=
  (c1_divisibility_invariant ⟨[⟨[some 1, some 2]⟩, ⟨[some 3]⟩]⟩ ⟨[9, 9]⟩
    ⟨[⟨[1, 2]⟩, ⟨[3]⟩]⟩ 3 rfl rfl).2 0 (by decide)

/-- C2: in `IndeterminateSumsInRatio::evaluate`, the base scale is determined
from the set of distinct per-axis inferred scales (axes containing unknowns
contribute no value): an empty set defaults the base scale to 1, a singleton
set gives its element, and a set of two or more distinct values makes
`evaluate` fail with `UnequalScales` carrying the full set of conflicting
values. -/
theorem c2_base_scale_selection (r : IndeterminateSumsInRatio) (rect : HyperRectangle)
    (ds : List Nat)
    (hds : collectScalesAux [] (r.sums.zip rect.lengths) = some (Except.ok ds)) :
    (∀ v, v ∈ ds ↔ ∃ p, p ∈ r.sums.zip rect.lengths ∧ p.1.countUnknowns = 0 ∧
        p.1.sumKnowns ∣ p.2 ∧ p.2 / p.1.sumKnowns = v) ∧
    ds.Nodup ∧
    (ds = [] → baseScaleOf ds = Except.ok 1) ∧
    (∀ x, ds = [x] → baseScaleOf ds = Except.ok x) ∧
    (2 ≤ ds.length →
      r.evaluate rect = some (Except.error (SumsInRatioEvaluationError.unequalScales ds))) := by
  refine ⟨?_, collectScalesAux_nodup _ _ _ List.nodup_nil hds, ?_, ?_, ?_⟩
  · intro v
    rw [collectScalesAux_mem _ _ _ hds v]
    simp
  · intro hnil
    rw [hnil]
    rfl
  · intro x hx
    rw [hx]
    rfl
  · intro h2
    simp only [IndeterminateSumsInRatio.evaluate, hds]
    rw [baseScaleOf_two ds h2]

theorem c2_witness :
    IndeterminateSumsInRatio.evaluate ⟨[⟨[some 1, some 2]⟩, ⟨[some 3]⟩]⟩ ⟨[9, 6]⟩ =
      some (Except.error (SumsInRatioEvaluationError.unequalScales [3, 2])) :=
  (c2_base_scale_selection ⟨[⟨[some 1, some 2]⟩, ⟨[some 3]⟩]⟩ ⟨[9, 6]⟩ [3, 2]
    rfl).2.2.2.2 (by decide)

/-- C3: when `IndeterminateSumsInRatio::evaluate` succeeds, the returned scale
is `gcd(base_scale, rectangle.lengths[0], ..., rectangle.lengths[D-1])`
(stated as a fold of `gcd` over the lengths starting from the base scale), and each
axis was solved by multiplying its known addends by
`scale_factor = base_scale / scale` and evaluating against
`rectangle.lengths[i] / scale` (the length divided by the final scale, not the
base scale). -/
theorem c3_gcd_downscaling (r : IndeterminateSumsInRatio) (rect : HyperRectangle)
    (solved : SumsInRatio) (scale : Nat) (ds : List Nat) (b : Nat)
    (hlen : r.sums.length = rect.lengths.length)
    (h : r.evaluate rect = some (Except.ok (solved, scale)))
    (hds : collectScalesAux [] (r.sums.zip rect.lengths) = some (Except.ok ds))
    (hb : baseScaleOf ds = Except.ok b) :
    scale = rect.lengths.foldl Nat.gcd b ∧
    ∀ i, i < rect.lengths.length →
      ((r.sums.getD i { addends := [] }).mulFactor (b / scale)).evaluate
          (rect.lengths.getD i 0 / scale) 1 =
        some (Except.ok (solved.sums.getD i { addends := [] })) := by
  obtain ⟨ds2, b2, hds2, hb2, hscale, hs0, hax⟩ := sumsEvaluate_ok_inv r rect solved scale h
  have hdseq : ds2 = ds := by
    rw [hds] at hds2
    simpa using hds2.symm
  subst hdseq
  have hbeq : b2 = b := by
    rw [hb] at hb2
    simpa using hb2.symm
  subst hbeq
  refine ⟨hscale, ?_⟩
  intro i hi
  have hziplen : (r.sums.zip rect.lengths).length = rect.lengths.length := by
    rw [List.length_zip, hlen, Nat.min_self]
  have hi2 : i < (r.sums.zip rect.lengths).length := by rw [hziplen]; exact hi
  have hpair := (evalAxes_ok _ _ _ _ hax).2 i hi2
  rw [zip_getD r.sums rect.lengths i (by rw [hlen]; exact hi) hi] at hpair
  exact hpair

theorem dvd_sub_mul_iff (length scale k u : Nat) (hs : 0 < scale) (hge : k * scale ≤ length) :
    (scale * u) ∣ (length - k * scale) ↔ (scale ∣ length ∧ u ∣ (length / scale - k)) := by
  constructor
  · intro hdvd
    have hsl : scale ∣ length := by
      have h1 : scale ∣ length - k * scale := dvd_trans (dvd_mul_right scale u) hdvd
      have h2 : scale ∣ k * scale := dvd_mul_left scale k
      have h3 := Nat.sub_add_cancel hge
      rw [← h3]
      exact Nat.dvd_add h1 h2
    refine ⟨hsl, ?_⟩
    obtain ⟨m, hm⟩ := hsl
    subst hm
    rw [Nat.mul_div_cancel_left m hs]
    rw [Nat.mul_comm k scale, ← Nat.mul_sub_left_distrib] at hdvd
    exact (Nat.mul_dvd_mul_iff_left hs).mp hdvd
  · rintro ⟨hsl, hdu⟩
    obtain ⟨m, hm⟩ := hsl
    subst hm
    rw [Nat.mul_div_cancel_left m hs] at hdu
    rw [Nat.mul_comm k scale, ← Nat.mul_sub_left_distrib]
    exact (Nat.mul_dvd_mul_iff_left hs).mpr hdu

theorem sub_mul_div_eq (length scale k u : Nat) (hs : 0 < scale) (hsl : scale ∣ length) :
    (length - k * scale) / (scale * u) = (length / scale - k) / u := by
  obtain ⟨m, hm⟩ := hsl
  subst hm
  rw [Nat.mul_div_cancel_left m hs, Nat.mul_comm k scale, ← Nat.mul_sub_left_distrib,
    Nat.mul_div_mul_left _ _ hs]

/-- C4: for an `IndeterminateDimensionSum` containing at least one unknown,
`evaluate(length, scale)` resolves every unknown to the same shared value
`solution = (length / scale - sum_of_knowns) / count_of_unknowns`, failing
with a does-not-divide (`NotAnInteger`) error when an intermediate division is
inexact; for a sum with zero unknowns, `evaluate` returns the known addends
unchanged. Stated under the no-panic preconditions `0 < scale` and
`sum_of_knowns * scale ≤ length` (see C9 for the panic behaviour outside
them). -/
theorem c4_unknown_solving :
    (∀ (s : IndeterminateDimensionSum) (length scale : Nat),
      0 < s.countUnknowns → 0 < scale → s.sumKnowns * scale ≤ length →
        ((scale ∣ length ∧ s.countUnknowns ∣ (length / scale - s.sumKnowns)) →
          s.evaluate length scale = some (Except.ok { addends := s.addends.map (fun a =>
            a.getD ((length / scale - s.sumKnowns) / s.countUnknowns)) })) ∧
        (¬ (scale ∣ length ∧ s.countUnknowns ∣ (length / scale - s.sumKnowns)) →
          s.evaluate length scale = some (Except.error
            (mkNotAnInteger (length - s.sumKnowns * scale) (scale * s.countUnknowns))))) ∧
    (∀ (s : IndeterminateDimensionSum) (length scale : Nat), s.countUnknowns = 0 →
      s.evaluate length scale = some (Except.ok { addends := s.addends.filterMap id })) := by
  constructor
  · intro s length scale hu hs hge
    have hiff := dvd_sub_mul_iff length scale s.sumKnowns s.countUnknowns hs hge
    constructor
    · intro hcond
      have hdvd := hiff.mpr hcond
      have h1 := (dimEvaluate_unknown_ok_iff s length scale
        { addends := s.addends.map (fun a =>
            a.getD ((length - s.sumKnowns * scale) / (scale * s.countUnknowns))) }
        (by omega) (by omega) hge).mpr ⟨hdvd, rfl⟩
      rw [h1, sub_mul_div_eq length scale s.sumKnowns s.countUnknowns hs hcond.1]
    · intro hcond
      have hndvd : ¬ (scale * s.countUnknowns) ∣ (length - s.sumKnowns * scale) :=
        fun hd => hcond (hiff.mp hd)
      exact dimEvaluate_unknown_error s length scale (by omega) (by omega) hge hndvd
  · intro s length scale h0
    exact dimEvaluate_known s length scale h0

theorem c4_witness :
    IndeterminateDimensionSum.evaluate ⟨[some 1, none]⟩ 6 2 =
      some (Except.ok ⟨[1, 2]⟩) := by
  have h := (c4_unknown_solving.1 ⟨[some 1, none]⟩ 6 2 (by decide) (by decide) (by decide)).1
    (by decide)
  exact h.trans rfl

/-- C9: `IndeterminateDimensionSum::evaluate(length, scale)` with at least one
unknown present is total only under the precondition
`sum_of_knowns ≤ length / scale` (with a positive scale, the well-formedness
the precondition presupposes, since `Ratio::new(length, 0)` itself panics):
under that hypothesis the subtraction `total - sum_of_knowns` never underflows
and `evaluate` always returns either a solved sum or a typed not-an-integer
error; when the known addends' sum exceeds `length / scale` — e.g. the sum
parsed from "9+" evaluated against length 4 with scale 4 — the unsigned
rational subtraction panics (`none`) instead of producing a typed error. -/
theorem c9_evaluate_totality :
    (∀ (s : IndeterminateDimensionSum) (length scale : Nat),
      0 < s.countUnknowns → 0 < scale → s.sumKnowns ≤ length / scale →
        (s.evaluate length scale).isSome) ∧
    (∀ (s : IndeterminateDimensionSum) (length scale : Nat),
      0 < s.countUnknowns → 0 < scale → length / scale < s.sumKnowns →
        s.evaluate length scale = none) ∧
    IndeterminateDimensionSum.fromStr "9+".toList = some ⟨[some 9, none]⟩ ∧
    IndeterminateDimensionSum.evaluate ⟨[some 9, none]⟩ 4 4 = none := by
  refine ⟨?_, ?_, ?_, rfl⟩
  · intro s length scale hu hs hge
    have hge2 : s.sumKnowns * scale ≤ length := (Nat.le_div_iff_mul_le hs).mp hge
    by_cases hdvd : (scale * s.countUnknowns) ∣ (length - s.sumKnowns * scale)
    · rw [(dimEvaluate_unknown_ok_iff s length scale _ (by omega) (by omega) hge2).mpr
        ⟨hdvd, rfl⟩]
      rfl
    · rw [dimEvaluate_unknown_error s length scale (by omega) (by omega) hge2 hdvd]
      rfl
  · intro s length scale hu hs hlt
    have hlt2 : length < s.sumKnowns * scale := (Nat.div_lt_iff_lt_mul hs).mp hlt
    exact dimEvaluate_unknown_underflow s length scale (by omega) (by omega) hlt2
  · simp [IndeterminateDimensionSum.fromStr, parseDimSum, dimSumLoop, parseOptU32, parseU32,
      digitsVal, digitVal]

theorem c9_witness :
    (IndeterminateDimensionSum.evaluate ⟨[none, none]⟩ 10 1).isSome ∧
    IndeterminateDimensionSum.evaluate ⟨[some 9, none]⟩ 4 4 = none :=
  ⟨c9_evaluate_totality.1 ⟨[none, none]⟩ 10 1 (by decide) (by decide) (by decide),
    c9_evaluate_totality.2.2.2⟩

/-- C10: `IndeterminateDimensionSum::infer_scale(length)` is total only under
the precondition that a fully-known sum's addends total is nonzero: for a sum
whose addends are all known and sum to zero (e.g. parsed from "0" or "0+0"),
`Ratio::new(length, 0)` is constructed with a zero denominator and panics
(`none`), so `infer_scale` — and `IndeterminateSumsInRatio::evaluate`, which
calls it on such an axis — never reaches its typed error path for such
inputs. -/
theorem c10_infer_scale_totality :
    (∀ (s : IndeterminateDimensionSum) (length : Nat),
      s.countUnknowns = 0 → s.sumKnowns = 0 → s.inferScale length = none) ∧
    (∀ (s : IndeterminateDimensionSum) (length : Nat),
      s.countUnknowns = 0 → 0 < s.sumKnowns → (s.inferScale length).isSome) ∧
    (∀ (s : IndeterminateDimensionSum) (length : Nat),
      s.countUnknowns ≠ 0 → s.inferScale length = some (Except.ok none)) ∧
    IndeterminateDimensionSum.fromStr "0".toList = some ⟨[some 0]⟩ ∧
    IndeterminateDimensionSum.fromStr "0+0".toList = some ⟨[some 0, some 0]⟩ ∧
    IndeterminateSumsInRatio.evaluate ⟨[⟨[some 0]⟩]⟩ ⟨[10]⟩ = none := by
  refine ⟨?_, ?_, ?_, ?_, ?_, rfl⟩
  · intro s length h0 hk
    exact (inferScale_none_iff s length).mpr ⟨h0, hk⟩
  · intro s length h0 hk
    exact inferScale_isSome_of_known s length h0 hk
  · intro s length hu
    unfold IndeterminateDimensionSum.inferScale
    rw [if_neg hu]
  · simp [IndeterminateDimensionSum.fromStr, parseDimSum, dimSumLoop, parseOptU32, parseU32,
      digitsVal, digitVal]
  · simp [IndeterminateDimensionSum.fromStr, parseDimSum, dimSumLoop, parseOptU32, parseU32,
      digitsVal, digitVal]

theorem c10_witness :
    IndeterminateDimensionSum.inferScale ⟨[some 0, some 0]⟩ 7 = none ∧
    (IndeterminateDimensionSum.inferScale ⟨[some 2]⟩ 7).isSome :=
  ⟨c10_infer_scale_totality.1 ⟨[some 0, some 0]⟩ 7 (by decide) (by decide),
    c10_infer_scale_totality.2.1 ⟨[some 2]⟩ 7 (by decide) (by decide)⟩

/-- C6 (code evaluation at the failing input): `Divides(dividend) /
Divides(divisor)` returns the exact quotient when the division is exact, but
on a non-exact division the error it carries is `DoesNotDivide(dividend,
divisor)` — the dividend FIRST — whereas the claim (and the display string
"{0} does not divide {1}" of the error type itself) requires
`DoesNotDivide(divisor, dividend)`: at `Divides(7) / Divides(4)` the code
produces the payload `(7, 4)`, which the error template renders as the false
statement "7 does not divide 4". -/
theorem c6_divides_operand_order :
    dividesDiv 12 4 = some (Except.ok 3) ∧
    dividesDiv 7 4 = some (Except.error { arg0 := 7, arg1 := 4 }) ∧
    (7 : Nat) % 4 ≠ 0 := by
  refine ⟨rfl, rfl, by decide⟩

theorem c3_witness :
    ((⟨[some 2]⟩ : IndeterminateDimensionSum).mulFactor (5 / 1)).evaluate (10 / 1) 1 =
      some (Except.ok (⟨[10]⟩ : DimensionSum)) :=
  (c3_gcd_downscaling ⟨[⟨[some 2]⟩, ⟨[none, none]⟩]⟩ ⟨[10, 4]⟩ ⟨[⟨[10]⟩, ⟨[2, 2]⟩]⟩ 1
    [5] 5 rfl rfl rfl rfl).2 0 (by decide)

theorem offsetScan_eq (l : List Nat) : ∀ (off : Nat),
    offsetScan l off = (List.range l.length).map
      (fun i => { addend := l.getD i 0, offset := off + (l.take i).sum }) := by
  induction l with
  | nil => intro _; rfl
  | cons a t ih =>
    intro off
    rw [show offsetScan (a :: t) off =
        { addend := a, offset := off } :: offsetScan t (off + a) from rfl]
    rw [ih (off + a), List.length_cons, List.range_succ_eq_map, List.map_cons, List.map_map]
    congr 1
    all_goals simp [Nat.add_assoc]

theorem iterWithOffsets_eq (d : DimensionSum) :
    d.iterWithOffsets = (List.range d.addends.length).map
      (fun i => { addend := d.addends.getD i 0, offset := (d.addends.take i).sum }) := by
  show offsetScan d.addends 0 = _
  rw [offsetScan_eq]
  apply List.map_congr_left
  intro i _
  simp

theorem cartProd_map_iterWithOffsets (ls : List DimensionSum) :
    cartProd (ls.map (fun d => d.iterWithOffsets)) =
      (allIndices (ls.map (fun d => d.addends.length))).map
        (fun idx => List.zipWith
          (fun (d : DimensionSum) (i : Nat) =>
            ({ addend := d.addends.getD i 0,
               offset := (d.addends.take i).sum } : AddendWithOffset)) ls idx) := by
  induction ls with
  | nil => rfl
  | cons d t ih =>
    simp only [List.map_cons, cartProd, allIndices]
    rw [iterWithOffsets_eq, ih]
    rw [List.flatMap_map, List.map_flatMap]
    apply List.flatMap_congr
    intro i _
    simp only [List.map_map]
    apply List.map_congr_left
    intro idx _
    simp

theorem allIndices_length (cs : List Nat) : (allIndices cs).length = cs.prod := by
  induction cs with
  | nil => rfl
  | cons c t ih =>
    simp only [allIndices, List.length_flatMap, List.map_map]
    have hconst : (List.map (List.length ∘ fun i => (allIndices t).map (fun u => i :: u))
        (List.range c)) = List.replicate c (allIndices t).length := by
      rw [show (List.length ∘ fun i => (allIndices t).map (fun u => i :: u)) =
          (fun _ => (allIndices t).length) from funext (fun i => by simp)]
      simp [List.map_const', List.length_range]
    rw [hconst, List.sum_replicate, ih, List.prod_cons, smul_eq_mul]

/-- C5: enumerating the partitions of a solved `SumsInRatio` yields exactly
the product, over all axes, of that axis's addend count; the partitions appear
in row-major order (axis 0 varies slowest, the last axis fastest — captured by
equality with the row-major `allIndices` enumeration), and each partition's
per-axis position equals the exclusive prefix sum of the addends preceding it
on that axis while its per-axis size equals the addend itself. Stated for at
least one axis (the source asserts `D != 0`; `itertools` yields nothing for a
zero-axis product). -/
theorem c5_partition_enumeration (r : SumsInRatio) (hne : r.sums ≠ []) :
    r.iterPartitions =
      (allIndices (r.sums.map (fun d => d.addends.length))).map (fun idx =>
        { ratioPosition := List.zipWith
            (fun (d : DimensionSum) (i : Nat) => (d.addends.take i).sum) r.sums idx
          ratio := List.zipWith
            (fun (d : DimensionSum) (i : Nat) => d.addends.getD i 0) r.sums idx }) ∧
    r.iterPartitions.length = (r.sums.map (fun d => d.addends.length)).prod := by
  obtain ⟨d0, t0, hcons⟩ := List.exists_cons_of_ne_nil hne
  have hmc : multiCartProd (r.sums.map (fun d => d.iterWithOffsets)) =
      cartProd (r.sums.map (fun d => d.iterWithOffsets)) := by
    rw [hcons]
    rfl
  have h1 : r.iterPartitions =
      (allIndices (r.sums.map (fun d => d.addends.length))).map (fun idx =>
        { ratioPosition := List.zipWith
            (fun (d : DimensionSum) (i : Nat) => (d.addends.take i).sum) r.sums idx
          ratio := List.zipWith
            (fun (d : DimensionSum) (i : Nat) => d.addends.getD i 0) r.sums idx }) := by
    show (multiCartProd (r.sums.map (fun d => d.iterWithOffsets))).map _ = _
    rw [hmc, cartProd_map_iterWithOffsets, List.map_map]
    apply List.map_congr_left
    intro idx _
    simp [List.map_zipWith]
  refine ⟨h1, ?_⟩
  rw [h1, List.length_map, allIndices_length]

theorem c5_witness :
    SumsInRatio.iterPartitions ⟨[⟨[1, 2]⟩, ⟨[3]⟩]⟩ =
      [{ ratioPosition := [0, 0], ratio := [1, 3] },
       { ratioPosition := [1, 0], ratio := [2, 3] }] :=
  ((c5_partition_enumeration ⟨[⟨[1, 2]⟩, ⟨[3]⟩]⟩ (by simp)).1).trans rfl

theorem toNat_charOfNat_digit (d : Nat) (h : d < 10) : (Char.ofNat (48 + d)).toNat = 48 + d := by
  interval_cases d <;> decide

theorem isDigit_charOfNat_digit (d : Nat) (h : d < 10) :
    (Char.ofNat (48 + d)).isDigit = true := by
  interval_cases d <;> decide

theorem digitVal_charOfNat_digit (d : Nat) (h : d < 10) :
    digitVal (Char.ofNat (48 + d)) = d := by
  unfold digitVal
  rw [toNat_charOfNat_digit d h]
  omega

theorem natToDigits_ne_nil (n : Nat) : natToDigits n ≠ [] := by
  rw [natToDigits]
  split
  · simp
  · simp

theorem natToDigits_all_digits (n : Nat) : ∀ c ∈ natToDigits n, c.isDigit = true := by
  induction n using Nat.strong_induction_on with
  | _ n ih =>
    rw [natToDigits]
    split
    · rename_i h
      intro c hc
      rw [List.mem_singleton] at hc
      subst hc
      exact isDigit_charOfNat_digit n h
    · rename_i h
      intro c hc
      rw [List.mem_append] at hc
      cases hc with
      | inl h1 => exact ih (n / 10) (Nat.div_lt_self (by omega) (by decide)) c h1
      | inr h2 =>
        rw [List.mem_singleton] at h2
        subst h2
        exact isDigit_charOfNat_digit (n % 10) (Nat.mod_lt n (by decide))

theorem digitsVal_append_singleton (l : List Char) (c : Char) :
    digitsVal (l ++ [c]) = 10 * digitsVal l + digitVal c := by
  unfold digitsVal
  rw [List.foldl_append]
  rfl

theorem digitsVal_natToDigits (n : Nat) : digitsVal (natToDigits n) = n := by
  induction n using Nat.strong_induction_on with
  | _ n ih =>
    rw [natToDigits]
    split
    · rename_i h
      show digitsVal [Char.ofNat (48 + n)] = n
      unfold digitsVal
      simp [digitVal_charOfNat_digit n h]
    · rename_i h
      rw [digitsVal_append_singleton,
        ih (n / 10) (Nat.div_lt_self (by omega) (by decide)),
        digitVal_charOfNat_digit (n % 10) (Nat.mod_lt n (by decide))]
      omega

theorem takeWhile_digits_append (ds t : List Char) (h : ∀ c ∈ ds, c.isDigit = true)
    (ht : ∀ c, t.head? = some c → c.isDigit = false) :
    (ds ++ t).takeWhile Char.isDigit = ds ∧ (ds ++ t).dropWhile Char.isDigit = t := by
  induction ds with
  | nil =>
    simp only [List.nil_append]
    cases t with
    | nil => exact ⟨rfl, rfl⟩
    | cons c t2 =>
      have hc := ht c rfl
      rw [List.takeWhile_cons_of_neg (by simp [hc]), List.dropWhile_cons_of_neg (by simp [hc])]
      exact ⟨rfl, rfl⟩
  | cons d ds2 ih =>
    have hd := h d (List.mem_cons_self _ _)
    obtain ⟨h1, h2⟩ := ih (fun c hc => h c (List.mem_cons_of_mem _ hc))
    rw [List.cons_append, List.takeWhile_cons_of_pos (by simp [hd]),
      List.dropWhile_cons_of_pos (by simp [hd]), h1, h2]
    exact ⟨rfl, rfl⟩

theorem parseOptU32_enc (e : Option Nat) (t : List Char)
    (hbound : ∀ v, e = some v → v < 4294967296)
    (ht : ∀ c, t.head? = some c → c.isDigit = false) :
    parseOptU32 (encAddend e ++ t) = (t, e) := by
  cases e with
  | none =>
    show parseOptU32 ([] ++ t) = (t, none)
    rw [List.nil_append]
    have htw : t.takeWhile Char.isDigit = [] := by
      cases t with
      | nil => rfl
      | cons c t2 =>
        have hc := ht c rfl
        rw [List.takeWhile_cons_of_neg (by simp [hc])]
    simp [parseOptU32, parseU32, htw]
  | some v =>
    have hb := hbound v rfl
    show parseOptU32 (natToDigits v ++ t) = (t, some v)
    obtain ⟨htw, hdw⟩ :=
      takeWhile_digits_append (natToDigits v) t (natToDigits_all_digits v) ht
    simp [parseOptU32, parseU32, htw, hdw, natToDigits_ne_nil v, digitsVal_natToDigits, hb]

theorem dimSumLoop_nil : dimSumLoop [] = ([], []) := by
  unfold dimSumLoop
  rfl

theorem dimSumLoop_plus (rest : List Char) :
    dimSumLoop ('+' :: rest) =
      ((parseOptU32 rest).2 :: (dimSumLoop (parseOptU32 rest).1).1,
        (dimSumLoop (parseOptU32 rest).1).2) := by
  rw [dimSumLoop]

theorem parseDimSum_eq (s : List Char) :
    parseDimSum s =
      ((parseOptU32 s).2 :: (dimSumLoop (parseOptU32 s).1).1,
        (dimSumLoop (parseOptU32 s).1).2) := rfl

theorem parseDimSum_display :
    ∀ (addends : List (Option Nat)), addends ≠ [] →
      (∀ v, some v ∈ addends → v < 4294967296) →
      parseDimSum (joinPlus (addends.map encAddend)) = (addends, []) := by
  intro addends
  induction addends with
  | nil => intro h; exact absurd rfl h
  | cons a t ih =>
    intro _ hb
    cases t with
    | nil =>
      rw [show joinPlus ([a].map encAddend) = encAddend a from rfl, parseDimSum_eq]
      have hp := parseOptU32_enc a [] (fun v hv => hb v (hv ▸ List.mem_cons_self _ _))
        (fun c hc => by cases hc)
      rw [List.append_nil] at hp
      rw [hp]
      simp [dimSumLoop_nil]
    | cons b u =>
      rw [show joinPlus ((a :: b :: u).map encAddend) =
          encAddend a ++ '+' :: joinPlus ((b :: u).map encAddend) from rfl, parseDimSum_eq]
      have hp := parseOptU32_enc a ('+' :: joinPlus ((b :: u).map encAddend))
        (fun v hv => hb v (hv ▸ List.mem_cons_self _ _))
        (fun c hc => by
          simp only [List.head?_cons, Option.some.injEq] at hc
          subst hc
          decide)
      rw [hp]
      have hih := ih (by simp) (fun v hv => hb v (List.mem_cons_of_mem _ hv))
      rw [parseDimSum_eq] at hih
      have hih1 := congrArg Prod.fst hih
      have hih2 := congrArg Prod.snd hih
      simp only at hih1 hih2
      rw [dimSumLoop_plus]
      simp only [List.map_cons] at hih1 hih2
      injection hih1 with e1 e2
      simp [e1, e2, hih2]

/-- C8: for every `IndeterminateDimensionSum` with at least one addend
position, formatting it (known addends as decimal numerals, unknowns as empty
fields, positions joined by `+`) and re-parsing the resulting string yields an
`IndeterminateDimensionSum` equal to the original. The known addends are
`u32` values in the source, so the statement carries the corresponding
`< 2^32` bound as a hypothesis. -/
theorem c8_display_roundtrip (s : IndeterminateDimensionSum)
    (hne : s.addends ≠ [])
    (hb : ∀ v, some v ∈ s.addends → v < 4294967296) :
    IndeterminateDimensionSum.fromStr s.display = some s := by
  unfold IndeterminateDimensionSum.fromStr
  rw [show s.display = joinPlus (s.addends.map encAddend) from rfl,
    parseDimSum_display s.addends hne hb]
  simp

theorem c8_witness :
    IndeterminateDimensionSum.fromStr
        (IndeterminateDimensionSum.display ⟨[some 12, none, some 3]⟩) =
      some ⟨[some 12, none, some 3]⟩ :=
  c8_display_roundtrip ⟨[some 12, none, some 3]⟩ (by simp)
    (by
      intro v hv
      simp at hv
      rcases hv with rfl | rfl <;> decide)

theorem parseU32_run (r t : List Char) (hne : r ≠ []) (hdig : ∀ c ∈ r, c.isDigit = true)
    (hb : digitsVal r < 4294967296)
    (ht : ∀ c, t.head? = some c → c.isDigit = false) :
    parseU32 (r ++ t) = some (t, digitsVal r) := by
  obtain ⟨htw, hdw⟩ := takeWhile_digits_append r t hdig ht
  simp [parseU32, htw, hdw, hne, hb]

theorem parseU32_inv (s rest : List Char) (v : Nat) (h : parseU32 s = some (rest, v)) :
    ∃ r, r ≠ [] ∧ (∀ c ∈ r, c.isDigit = true) ∧ digitsVal r = v ∧
      digitsVal r < 4294967296 ∧ s = r ++ rest ∧
      (∀ c, rest.head? = some c → c.isDigit = false) := by
  unfold parseU32 at h
  simp only at h
  split at h
  · cases h
  · split at h
    · rename_i hne hlt
      simp only [Option.some.injEq, Prod.mk.injEq] at h
      obtain ⟨h1, h2⟩ := h
      refine ⟨s.takeWhile Char.isDigit, by simpa using hne, ?_, h2, hlt, ?_, ?_⟩
      · intro c hc
        simpa using List.mem_takeWhile_imp hc
      · rw [← h1]
        exact (List.takeWhile_append_dropWhile _ _).symm
      · intro c hc
        rw [← h1] at hc
        have hd := List.head?_dropWhile_not Char.isDigit s
        rw [hc] at hd
        simpa using hd
    · cases h

theorem joinX_cons (r : List Char) (rest : List (List Char)) :
    joinX (r :: rest) = r ++ xPrefixed rest := by
  induction rest generalizing r with
  | nil => simp [joinX, xPrefixed]
  | cons b u ih =>
    rw [show joinX (r :: b :: u) = r ++ 'x' :: joinX (b :: u) from rfl, ih b]
    rfl

theorem xPrefixed_head (runs : List (List Char)) :
    ∀ c, (xPrefixed runs).head? = some c → c.isDigit = false := by
  intro c hc
  cases runs with
  | nil => cases hc
  | cons r rest =>
    simp only [xPrefixed, List.head?_cons, Option.some.injEq] at hc
    subst hc
    decide

theorem repPairX_joinX :
    ∀ (runs : List (List Char)),
      (∀ r ∈ runs, r ≠ [] ∧ (∀ c ∈ r, c.isDigit = true) ∧ digitsVal r < 4294967296) →
      repPairXU32 runs.length (xPrefixed runs) = some ([], runs.map digitsVal) := by
  intro runs
  induction runs with
  | nil => intro _; rfl
  | cons r rest ih =>
    intro hgood
    obtain ⟨hne, hdig, hb⟩ := hgood r (List.mem_cons_self _ _)
    have hrec := ih (fun q hq => hgood q (List.mem_cons_of_mem _ hq))
    show repPairXU32 (rest.length + 1) ('x' :: (r ++ xPrefixed rest)) = _
    simp only [repPairXU32]
    rw [parseU32_run r (xPrefixed rest) hne hdig hb (xPrefixed_head rest)]
    simp [hrec]

theorem repPairX_inv :
    ∀ (k : Nat) (s : List Char) (vs : List Nat),
      repPairXU32 k s = some ([], vs) →
      ∃ runs, runs.length = k ∧
        (∀ r ∈ runs, r ≠ [] ∧ (∀ c ∈ r, c.isDigit = true) ∧ digitsVal r < 4294967296) ∧
        s = xPrefixed runs ∧ vs = runs.map digitsVal := by
  intro k
  induction k with
  | zero =>
    intro s vs h
    simp only [repPairXU32, Option.some.injEq, Prod.mk.injEq] at h
    obtain ⟨h1, h2⟩ := h
    exact ⟨[], rfl, by simp, by rw [h1]; rfl, h2.symm⟩
  | succ k ih =>
    intro s vs h
    unfold repPairXU32 at h
    split at h
    · split at h
      · rename_i rest pr rest2 v hp
        split at h
        · rename_i qr rem vs2 hr
          simp only [Option.some.injEq, Prod.mk.injEq] at h
          obtain ⟨hrem, hvs⟩ := h
          subst hrem
          obtain ⟨runs2, hlen2, hgood2, hs2, hvs2⟩ := ih rest2 vs2 hr
          obtain ⟨r1, hne1, hdig1, hval1, hb1, hsplit, _⟩ := parseU32_inv rest rest2 v hp
          refine ⟨r1 :: runs2, by simp [hlen2], ?_, ?_, ?_⟩
          · intro q hq
            cases List.mem_cons.mp hq with
            | inl hq1 => exact hq1 ▸ ⟨hne1, hdig1, hval1 ▸ hb1⟩
            | inr hq2 => exact hgood2 q hq2
          · rw [hsplit, hs2]
            rfl
          · rw [← hvs, List.map_cons, ← hval1, ← hvs2]
        · cases h
      · cases h
    · cases h

/-- Counterexample to C7 as stated: for D = 2 the rectangle parser accepts
"0x0" (yielding lengths [0, 0]) even though 0 is not a positive integer, so
parsing does not succeed EXACTLY on inputs consisting of D positive integers
separated by `x`. -/
theorem c7_counterexample :
    HyperRectangle.fromStr 2 "0x0".toList = some { lengths := [0, 0] } := rfl

/-- C7 (amended): parsing a `HyperRectangle` for a dimension count `D ≥ 1`
succeeds exactly on inputs consisting of D base-10 numerals (each a non-empty
digit run whose value fits in `u32`, zero included) separated by `x`, yielding
their values; in particular, for D = 2, "100x200" yields lengths [100, 200]
while "100x200x300" fails (too many elements, leftover input), as does any
input with fewer than D numerals or any other separator. -/
theorem c7_rect_grammar (D : Nat) (hD : 0 < D) (s : List Char) (vs : List Nat) :
    (HyperRectangle.fromStr D s = some { lengths := vs } ↔
      ∃ runs : List (List Char), runs.length = D ∧
        (∀ r ∈ runs, r ≠ [] ∧ (∀ c ∈ r, c.isDigit = true) ∧ digitsVal r < 4294967296) ∧
        s = joinX runs ∧ vs = runs.map digitsVal) ∧
    HyperRectangle.fromStr 2 "100x200".toList = some { lengths := [100, 200] } ∧
    HyperRectangle.fromStr 2 "100x200x300".toList = none := by
  refine ⟨⟨?_, ?_⟩, rfl, rfl⟩
  · intro h
    unfold HyperRectangle.fromStr at h
    split at h
    · rename_i pr rem vs1 hrp
      split at h
      · rename_i hrem
        replace hrem : rem = [] := by simpa using hrem
        subst hrem
        simp only [Option.some.injEq, HyperRectangle.mk.injEq] at h
        unfold rectParse at hrp
        split at hrp
        · rename_i pq rest v hp
          split at hrp
          · rename_i qq rem2 vs2 hr
            simp only [Option.some.injEq, Prod.mk.injEq] at hrp
            obtain ⟨hrem2, hvs1⟩ := hrp
            subst hrem2
            obtain ⟨runs2, hlen2, hgood2, hs2, hvs2⟩ := repPairX_inv (D - 1) rest vs2 hr
            obtain ⟨r1, hne1, hdig1, hval1, hb1, hsplit, _⟩ := parseU32_inv s rest v hp
            refine ⟨r1 :: runs2, ?_, ?_, ?_, ?_⟩
            · simp [hlen2]
              omega
            · intro q hq
              cases List.mem_cons.mp hq with
              | inl hq1 => exact hq1 ▸ ⟨hne1, hdig1, hval1 ▸ hb1⟩
              | inr hq2 => exact hgood2 q hq2
            · rw [hsplit, hs2, joinX_cons]
            · rw [← h, ← hvs1, List.map_cons, ← hval1, ← hvs2]
          · cases hrp
        · cases hrp
      · cases h
    · cases h
  · rintro ⟨runs, hlen, hgood, hs, hvs⟩
    cases runs with
    | nil =>
      simp at hlen
      omega
    | cons r1 runs2 =>
      obtain ⟨hne1, hdig1, hb1⟩ := hgood r1 (List.mem_cons_self _ _)
      have hgood2 : ∀ q ∈ runs2, q ≠ [] ∧ (∀ c ∈ q, c.isDigit = true) ∧
          digitsVal q < 4294967296 := fun q hq => hgood q (List.mem_cons_of_mem _ hq)
      have hlen2 : runs2.length = D - 1 := by
        simp at hlen
        omega
      unfold HyperRectangle.fromStr rectParse
      rw [hs, joinX_cons, parseU32_run r1 (xPrefixed runs2) hne1 hdig1 hb1
        (xPrefixed_head runs2), ← hlen2]
      simp [repPairX_joinX runs2 hgood2, hvs]

theorem c7_witness :
    HyperRectangle.fromStr 1 "7".toList = some { lengths := [7] } :=
  ((c7_rect_grammar 1 (by decide) "7".toList [7]).1).mpr
    ⟨[['7']], rfl, by decide, rfl, by decide⟩

end Rpex
